import Mathlib

/-
Verification development for the yardfindmembers ranking core.

We give a shallow embedding of the two-stage retrieve-then-classify ranking
engine and its indexing layer:

  * `src/utils/data_models.py`   — `sanitize_filename`, `MemberProfile`,
    `AnalysisResult` (similarity scores, Python floats, are modelled as `Rat`;
    no claim depends on float rounding, only on the ordering of scores);
  * `src/agents/embedding_agent.py` — `index_profile` (upsert-by-id into the
    two Chroma collections) and `search_similar` (first-seen deduplication of
    raw hits);
  * `src/agents/text_analyzer.py` — `analyze_profile` and `smart_analyze`
    (bounded classification merged with the complete candidate list);
  * `src/utils/table_generator.py` — `prepare_table_data` (group-and-sort
    output assembly).

External effects are made explicit: the LLM judge is a parameter returning
`Except` (an exception anywhere in the judge call / JSON extraction is the
`error` case), the profile repository is a parameter `String → Option
MemberProfile` (`ProfileLoader.load_by_name`), and the raw vector-store
answer to a query is a parameter list of hits.
-/

namespace YardFind

/-! ### Data model (`src/utils/data_models.py`) -/

/-- `MemberProfile` from `src/utils/data_models.py`. -/
structure MemberProfile where
  name : String
  expertise : String
  business : String
  hobbies : List String
  family_status : Option String
  contacts : List String
  source_image : Option String
deriving DecidableEq

/-- `AnalysisResult` from `src/utils/data_models.py`; `similarity_score`
defaults to `0.0` in the source, modelled by `0 : Rat`. -/
structure AnalysisResult where
  profile_name : String
  «matches» : Bool
  reasoning : String
  similarity_score : Rat
deriving DecidableEq

/-! ### `sanitize_filename` (`src/utils/data_models.py`, lines 7-30)

The Python call `re.sub` with pattern `[^\w\s-]` and empty replacement removes every character that is not
a word character, whitespace or a hyphen; `re.sub(r'[-\s]+', '_', ...)`
replaces each maximal run of hyphens/whitespace by one underscore; the result
is cut to `max_length` and stripped of leading/trailing underscores, with
`"unnamed"` as the fallback for empty input or empty result.

The Python Unicode class `\w` is modelled as: ASCII alphanumerics, the underscore,
and every non-ASCII code point (the repository data is Russian text, whose
non-ASCII characters are Cyrillic letters, i.e. word characters). The Python class
`\s` is modelled by its ASCII part. -/

def isPyWordChar (c : Char) : Bool :=
  c.isAlphanum || c = '_' || 0x80 ≤ c.toNat

def isPySpace (c : Char) : Bool :=
  c = ' ' || c = '\t' || c = '\n' || c = '\r' || c = '\x0b' || c = '\x0c'

/-- The first `re.sub` step: keep word characters, whitespace and
hyphens only. -/
def removeSpecial (cs : List Char) : List Char :=
  cs.filter (fun c => isPyWordChar c || isPySpace c || c = '-')

/-- `re.sub(r'[-\s]+', '_', s)`: each maximal run of hyphens/whitespace
becomes a single underscore.  The boolean records whether the previous
character belonged to such a run. -/
def collapseRuns : Bool → List Char → List Char
  | _, [] => []
  | inRun, c :: rest =>
    if isPySpace c || c = '-' then
      if inRun then collapseRuns true rest
      else '_' :: collapseRuns true rest
    else c :: collapseRuns false rest

/-- Python `str.strip('_')`. -/
def stripUnderscores (cs : List Char) : List Char :=
  ((cs.dropWhile (fun c => c = '_')).reverse.dropWhile (fun c => c = '_')).reverse

/-- The sanitisation pipeline of `sanitize_filename` before the `"unnamed"`
fallback: remove specials, collapse runs, truncate to `maxLength`, strip
underscores. -/
def sanitize_core (text : String) (maxLength : Nat) : String :=
  String.mk (stripUnderscores ((collapseRuns false (removeSpecial text.data)).take maxLength))

/-- `sanitize_filename` from `src/utils/data_models.py`. -/
def sanitize_filename (text : String) (maxLength : Nat) : String :=
  if text = "" then "unnamed"
  else if sanitize_core text maxLength = "" then "unnamed"
  else sanitize_core text maxLength

/-! ### Dual vector index (`src/agents/embedding_agent.py`)

A Chroma collection is modelled as an association list from document id to
the stored document; `add_documents(..., ids=[..])` has upsert semantics:
the document with the same id is replaced, otherwise the new document is
appended. -/

/-- The part of a stored Chroma document the claims can observe:
`page_content` plus the metadata written by `index_profile`. -/
structure ChromaDoc where
  page_content : String
  meta_name : String
  meta_source : String
  meta_type : String
deriving DecidableEq

/-- A Chroma collection: stored `(id, document)` pairs, at most one per id. -/
abbrev Collection := List (String × ChromaDoc)

/-- `add_documents([doc], ids=[id])`: replace the entry with the same id if
present, else append. -/
def add_documents (coll : Collection) (id : String) (doc : ChromaDoc) : Collection :=
  if coll.any (fun p => p.1 = id) then
    coll.map (fun p => if p.1 = id then (id, doc) else p)
  else
    coll ++ [(id, doc)]

/-- `count(view)` of the spec: the number of distinct identities stored. -/
def countView (coll : Collection) : Nat :=
  ((coll.map Prod.fst).dedup).length

/-- The two collections held by `EmbeddingAgent`. -/
structure EmbeddingState where
  professional_db : Collection
  personal_db : Collection
deriving DecidableEq

/-- The empty dual index. -/
def emptyEmbeddingState : EmbeddingState := ⟨[], []⟩

/-- `EmbeddingAgent._create_professional_text`. -/
def _create_professional_text (profile : MemberProfile) : String :=
  let parts₀ : List String := ["Имя: " ++ profile.name]
  let parts₁ := parts₀ ++
    (if profile.business ≠ "" then ["Бизнес и деятельность: " ++ profile.business] else [])
  let parts₂ := parts₁ ++
    (if profile.expertise ≠ "" then ["Экспертиза и навыки: " ++ profile.expertise] else [])
  let company_contacts :=
    profile.contacts.filter (fun c => !(c.startsWith "+") && !(c.contains '@'))
  let parts₃ := parts₂ ++
    (if profile.contacts ≠ [] ∧ company_contacts ≠ [] then
      ["Связанные компании: " ++ String.intercalate ", " company_contacts] else [])
  String.intercalate " " parts₃

/-- `EmbeddingAgent._create_personal_text`. -/
def _create_personal_text (profile : MemberProfile) : String :=
  let parts := [profile.name] ++ profile.hobbies ++
    (match profile.family_status with
     | some fs => [fs]
     | none => [])
  String.intercalate " " parts

/-- `EmbeddingAgent.index_profile`: upsert the two projections of a profile
under the ids `prof_<sanitized name>` / `pers_<sanitized name>`. -/
def index_profile (st : EmbeddingState) (profile : MemberProfile) : EmbeddingState :=
  let profile_id := sanitize_filename profile.name 100
  let source := profile.source_image.getD "unknown"
  let professional_doc : ChromaDoc :=
    ⟨_create_professional_text profile, profile.name, source, "professional"⟩
  let personal_doc : ChromaDoc :=
    ⟨_create_personal_text profile, profile.name, source, "personal"⟩
  { professional_db := add_documents st.professional_db ("prof_" ++ profile_id) professional_doc
    personal_db := add_documents st.personal_db ("pers_" ++ profile_id) personal_doc }

/-- `index_profile` applied `n` times to the same profile. -/
def indexTimes (st : EmbeddingState) (profile : MemberProfile) : Nat → EmbeddingState
  | 0 => st
  | n + 1 => index_profile (indexTimes st profile n) profile

/-! ### Candidate retrieval (`EmbeddingAgent.search_similar`, lines 137-179)

A raw hit of `similarity_search_with_score` is `(doc.metadata.get("name"),
score)`: an optional name (missing metadata gives Python `None`, modelled
`none`) and a score.  The Python guard `if name and name not in seen_names` skips a
hit whose name is `None` or the empty string, and any name already seen. -/

/-- A raw hit returned by the vector store. -/
abbrev Hit := Option String × Rat

/-- First-seen deduplication of raw hits, accumulating the set of seen
names: the loop body of `search_similar` restricted to
`all_profile_scores`. -/
def dedupFirstSeen : List Hit → List String → List (String × Rat)
  | [], _ => []
  | (none, _) :: rest, seen => dedupFirstSeen rest seen
  | (some name, score) :: rest, seen =>
    if name = "" then dedupFirstSeen rest seen
    else if name ∈ seen then dedupFirstSeen rest seen
    else (name, score) :: dedupFirstSeen rest (name :: seen)

/-- The loop of `search_similar`: accumulates `all_profile_scores` (every
first-seen hit) and `profile_scores` (the same, but only while fewer than
`k` have been collected), with `seen_names` threaded through. -/
def searchLoop (k : Nat) :
    List Hit → List (String × Rat) → List (String × Rat) → List String →
    List (String × Rat) × List (String × Rat)
  | [], allAcc, profAcc, _ => (allAcc, profAcc)
  | (name?, score) :: rest, allAcc, profAcc, seen =>
    match name? with
    | none => searchLoop k rest allAcc profAcc seen
    | some name =>
      if name = "" then searchLoop k rest allAcc profAcc seen
      else if name ∈ seen then searchLoop k rest allAcc profAcc seen
      else
        searchLoop k rest (allAcc ++ [(name, score)])
          (if profAcc.length < k then profAcc ++ [(name, score)] else profAcc)
          (name :: seen)

/-- `EmbeddingAgent.search_similar` as a function of the raw store hits:
returns `profile_scores`, the deduplicated list cut at `k`.  (Writing the
full score list to disk is a side effect outside the model.) -/
def search_similar (k : Nat) (hits : List Hit) : List (String × Rat) :=
  (searchLoop k hits [] [] []).2

/-- The score of the first raw hit carrying a given name. -/
def firstHitScore (hits : List Hit) (name : String) : Option Rat :=
  (hits.find? (fun h => h.1 = some name)).map Prod.snd

/-! ### Bounded classifier (`src/agents/text_analyzer.py`) -/

/-- The JSON object extracted from a successful judge reply: `data.get("matches",
False)` and `data.get("reasoning", "")` read optional fields. -/
structure JudgeData where
  «matches» : Option Bool
  reasoning : Option String

/-- The external judge: criteria, search type and profile in, either a parsed
JSON object or the message of the exception raised anywhere in the `try`
block of `analyze_profile` (LLM call failure, or malformed / unparsable
reply). -/
abbrev Judge := String → String → MemberProfile → Except String JudgeData

/-- `TextAnalyzerAgent.analyze_profile`: on success, read `matches` and
`reasoning` with their defaults; on any exception return a
`matches=false` result whose reasoning reports the error.  (The prompt text
built from the profile and `search_type` is consumed by the judge and is
absorbed into the `judge` parameter.) -/
def analyze_profile (judge : Judge) (criteria search_type : String)
    (profile : MemberProfile) : AnalysisResult :=
  match judge criteria search_type profile with
  | Except.ok data =>
    { profile_name := profile.name
      «matches» := data.«matches».getD false
      reasoning := data.reasoning.getD ""
      similarity_score := 0 }
  | Except.error e =>
    { profile_name := profile.name
      «matches» := false
      reasoning := "Ошибка анализа: " ++ e
      similarity_score := 0 }

/-- Modelled from the spec: `EmbeddingAgent.get_all_profiles_with_scores` is
called by `TextAnalyzerAgent.smart_analyze` but is absent from the
repository sources.  Per spec §4.2 (Candidate Retriever) it queries the
index of the view, iterates the hits in the order returned by the store, keeps the
first-seen score per identity, discards later duplicates and returns every
identity exactly once, in the store order — i.e. the same first-seen
deduplication `search_similar` performs, without the `k` cut. -/
def get_all_profiles_with_scores (hits : List Hit) : List (String × Rat) :=
  dedupFirstSeen hits []

/-- The body of `smart_analyze` after retrieval: analyse the first `top_k`
candidates whose profile loads (recording their names in `analyzed_names`),
then append every remaining candidate as an unanalysed `matches=false`
result with empty reasoning.  The two `for` loops, which append to
`results` / `analyzed_names`, are rendered as `filterMap` / `filter`. -/
def smart_analyze_on (judge : Judge) (repo : String → Option MemberProfile)
    (criteria search_type : String) (top_k : Nat)
    (all_profiles_with_scores : List (String × Rat)) : List AnalysisResult :=
  let top_k_for_llm := all_profiles_with_scores.take top_k
  let results := top_k_for_llm.filterMap (fun c =>
    (repo c.1).map (fun profile =>
      { analyze_profile judge criteria search_type profile with similarity_score := c.2 }))
  let analyzed_names := (top_k_for_llm.map Prod.fst).filter (fun n => (repo n).isSome)
  results ++
    (all_profiles_with_scores.filter (fun c => c.1 ∉ analyzed_names)).map (fun c =>
      { profile_name := c.1
        «matches» := false
        reasoning := ""
        similarity_score := c.2 })

/-- `TextAnalyzerAgent.smart_analyze` as a function of the raw store hits
for the queried view. -/
def smart_analyze (judge : Judge) (repo : String → Option MemberProfile)
    (criteria search_type : String) (top_k : Nat) (hits : List Hit) :
    List AnalysisResult :=
  smart_analyze_on judge repo criteria search_type top_k
    (get_all_profiles_with_scores hits)

/-! ### Rank assembly (`src/utils/table_generator.py`, `prepare_table_data`)

The similarity-score comparison used on both groups: `sort(key=lambda x:
x.similarity_score, reverse=True)` is a stable sort placing larger scores
first, modelled by the stable `List.mergeSort` with the same comparison. -/

/-- Descending-score comparison applied to both groups. -/
def byScoreDesc (a b : AnalysisResult) : Bool :=
  decide (b.similarity_score ≤ a.similarity_score)

/-- `TableGenerator.prepare_table_data`, up to row formatting: partition into
matched/unmatched, sort each group by descending `similarity_score`,
concatenate (matched first; only matched if `include_all_profiles` is
false), and pair each result with its loaded profile, silently dropping
results whose profile does not load.  Each element of the first component
yields exactly one data row of the generated table, in order.  The second
component is the numeric metadata `(total_profiles, matched_profiles,
top_analyzed)`. -/
def prepare_table_data (load : String → Option MemberProfile)
    (analysis_results : List AnalysisResult) (include_all_profiles : Bool) :
    List (MemberProfile × AnalysisResult) × (Nat × Nat × Nat) :=
  let matched := analysis_results.filter (fun r => r.«matches»)
  let unmatched := analysis_results.filter (fun r => !r.«matches»)
  let matchedSorted := matched.mergeSort byScoreDesc
  let unmatchedSorted := unmatched.mergeSort byScoreDesc
  let sorted_results :=
    if include_all_profiles then matchedSorted ++ unmatchedSorted else matchedSorted
  let profiles_with_results := sorted_results.filterMap (fun r =>
    (load r.profile_name).map (fun profile => (profile, r)))
  let analyzed_count := (analysis_results.filter (fun r => r.reasoning ≠ "")).length
  (profiles_with_results, (analysis_results.length, matched.length, analyzed_count))

/-! ## Theorems

### Properties of `sanitize_filename` -/

theorem collapseRuns_mem {c : Char} : ∀ {b : Bool} {cs : List Char},
    c ∈ collapseRuns b cs → c = '_' ∨ (c ∈ cs ∧ (isPySpace c || c = '-') = false) := by
  intro b cs
  induction cs generalizing b with
  | nil => intro h; simp [collapseRuns] at h
  | cons a rest ih =>
    intro h
    simp only [collapseRuns] at h
    split at h
    · split at h
      · rcases ih h with h₁ | ⟨h₂, h₃⟩
        · exact Or.inl h₁
        · exact Or.inr ⟨List.mem_cons_of_mem _ h₂, h₃⟩
      · rcases List.mem_cons.mp h with rfl | h'
        · exact Or.inl rfl
        · rcases ih h' with h₁ | ⟨h₂, h₃⟩
          · exact Or.inl h₁
          · exact Or.inr ⟨List.mem_cons_of_mem _ h₂, h₃⟩
    · next ha =>
      rcases List.mem_cons.mp h with rfl | h'
      · exact Or.inr ⟨List.mem_cons_self _ _, by simpa using ha⟩
      · rcases ih h' with h₁ | ⟨h₂, h₃⟩
        · exact Or.inl h₁
        · exact Or.inr ⟨List.mem_cons_of_mem _ h₂, h₃⟩

theorem dropWhile_head?_false {α : Type} (p : α → Bool) :
    ∀ (l : List α) {c : α}, (l.dropWhile p).head? = some c → p c = false := by
  intro l
  induction l with
  | nil => intro c h; simp [List.dropWhile] at h
  | cons a rest ih =>
    intro c h
    rw [List.dropWhile_cons] at h
    split at h
    · exact ih h
    · next ha =>
      simp only [List.head?_cons, Option.some.injEq] at h
      subst h
      simpa using ha

theorem stripUnderscores_subset {cs : List Char} {c : Char}
    (hc : c ∈ stripUnderscores cs) : c ∈ cs := by
  unfold stripUnderscores at hc
  rw [List.mem_reverse] at hc
  have h1 := (List.dropWhile_suffix _).subset hc
  rw [List.mem_reverse] at h1
  exact (List.dropWhile_suffix _).subset h1

theorem stripUnderscores_getLast? {cs : List Char} {c : Char}
    (h : (stripUnderscores cs).getLast? = some c) : c ≠ '_' := by
  unfold stripUnderscores at h
  rw [List.getLast?_reverse] at h
  have := dropWhile_head?_false (fun c => c = '_') _ h
  simpa using this

theorem stripUnderscores_head? {cs : List Char} {c : Char}
    (h : (stripUnderscores cs).head? = some c) : c ≠ '_' := by
  unfold stripUnderscores at h
  rw [List.head?_reverse] at h
  set D := cs.dropWhile (fun c => c = '_') with hD
  obtain ⟨t, ht⟩ := List.dropWhile_suffix (l := D.reverse) (fun c => c = '_')
  have hlast : D.reverse.getLast? = some c := by
    rw [← ht, List.getLast?_append, h]
    rfl
  rw [List.getLast?_reverse] at hlast
  have := dropWhile_head?_false (fun c => c = '_') cs hlast
  simpa using this

theorem stripUnderscores_length {cs : List Char} :
    (stripUnderscores cs).length ≤ cs.length := by
  unfold stripUnderscores
  rw [List.length_reverse]
  calc ((cs.dropWhile (fun c => c = '_')).reverse.dropWhile (fun c => c = '_')).length
      ≤ (cs.dropWhile (fun c => c = '_')).reverse.length :=
        (List.dropWhile_suffix _).sublist.length_le
    _ = (cs.dropWhile (fun c => c = '_')).length := List.length_reverse _
    _ ≤ cs.length := (List.dropWhile_suffix _).sublist.length_le

theorem sanitize_core_chars {text : String} {maxLength : Nat} {c : Char}
    (hc : c ∈ (sanitize_core text maxLength).data) :
    isPyWordChar c = true ∧ isPySpace c = false ∧ c ≠ '-' := by
  have h1 : c ∈ (collapseRuns false (removeSpecial text.data)).take maxLength :=
    stripUnderscores_subset hc
  have h2 : c ∈ collapseRuns false (removeSpecial text.data) := List.take_subset _ _ h1
  rcases collapseRuns_mem h2 with rfl | ⟨h3, h4⟩
  · refine ⟨by decide, by decide, by decide⟩
  · have h5 := List.of_mem_filter h3
    have hsp : isPySpace c = false := by
      rcases Bool.or_eq_false_iff.mp h4 with ⟨h, _⟩
      exact h
    have hdash : (c = '-' : Bool) = false := (Bool.or_eq_false_iff.mp h4).2
    refine ⟨?_, hsp, by simpa using hdash⟩
    rcases Bool.or_eq_true_iff.mp h5 with h | h
    · rcases Bool.or_eq_true_iff.mp h with h | h
      · exact h
      · rw [hsp] at h; exact absurd h (by simp)
    · rw [hdash] at h; exact absurd h (by simp)

theorem sanitize_core_length {text : String} {maxLength : Nat} :
    (sanitize_core text maxLength).length ≤ maxLength := by
  unfold sanitize_core
  show (stripUnderscores _).length ≤ maxLength
  calc (stripUnderscores ((collapseRuns false (removeSpecial text.data)).take maxLength)).length
      ≤ ((collapseRuns false (removeSpecial text.data)).take maxLength).length :=
        stripUnderscores_length
    _ ≤ maxLength := by rw [List.length_take]; exact min_le_left _ _

/-- **C10**: for every input `text` and bound `maxLength`,
`sanitize_filename text maxLength` is non-empty, contains only word
characters (no whitespace, no hyphen, no other specials), neither starts nor
ends with an underscore; whenever the sanitised text (the pipeline result
before the fallback, `sanitize_core`) is non-empty it is returned unchanged
and has length at most `maxLength`; when the input is empty or sanitises to
nothing the fixed string `"unnamed"` is returned. -/
theorem sanitize_filename_correct (text : String) (maxLength : Nat) :
    sanitize_filename text maxLength ≠ "" ∧
    (∀ c ∈ (sanitize_filename text maxLength).data,
      isPyWordChar c = true ∧ isPySpace c = false ∧ c ≠ '-') ∧
    (sanitize_filename text maxLength).data.head? ≠ some '_' ∧
    (sanitize_filename text maxLength).data.getLast? ≠ some '_' ∧
    (sanitize_core text maxLength ≠ "" →
      sanitize_filename text maxLength = sanitize_core text maxLength ∧
      (sanitize_filename text maxLength).length ≤ maxLength) ∧
    ((text = "" ∨ sanitize_core text maxLength = "") →
      sanitize_filename text maxLength = "unnamed") := by
  unfold sanitize_filename
  by_cases ht : text = ""
  · rw [if_pos ht]
    refine ⟨by decide, by decide, by decide, by decide, ?_, fun _ => rfl⟩
    intro hcore
    exfalso
    apply hcore
    subst ht
    show sanitize_core "" maxLength = ""
    unfold sanitize_core
    rw [show removeSpecial ("" : String).data = [] from rfl,
      show collapseRuns false [] = [] from rfl, List.take_nil]
    decide
  · rw [if_neg ht]
    by_cases hcore : sanitize_core text maxLength = ""
    · rw [if_pos hcore]
      exact ⟨by decide, by decide, by decide, by decide,
        fun h => absurd hcore h, fun _ => rfl⟩
    · rw [if_neg hcore]
      refine ⟨hcore, fun c hc => sanitize_core_chars hc, ?_, ?_, fun _ => ⟨rfl, sanitize_core_length⟩, ?_⟩
      · intro h
        exact stripUnderscores_head? h rfl
      · intro h
        exact stripUnderscores_getLast? h rfl
      · rintro (h | h)
        · exact absurd h ht
        · exact absurd h hcore

/-- Witness for **C10** at `text = "a b!"`, `maxLength = 5`: the sanitised
value is `"a_b"`, returned unchanged and within the length bound, and its
characters pass the class checks. -/
theorem sanitize_filename_correct_witness :
    (isPyWordChar 'a' = true ∧ isPySpace 'a' = false ∧ 'a' ≠ '-') ∧
    sanitize_filename "a b!" 5 = sanitize_core "a b!" 5 ∧
    (sanitize_filename "a b!" 5).length ≤ 5 ∧
    sanitize_filename "" 5 = "unnamed" := by
  have h := sanitize_filename_correct "a b!" 5
  have h0 := sanitize_filename_correct "" 5
  exact ⟨h.2.1 'a' (by decide), (h.2.2.2.2.1 (by decide)).1,
    (h.2.2.2.2.1 (by decide)).2, h0.2.2.2.2.2 (Or.inl rfl)⟩

/-! ### Properties of the dual vector index -/

theorem add_documents_keys_of_mem {coll : Collection} {id : String} (doc : ChromaDoc)
    (h : id ∈ coll.map Prod.fst) :
    (add_documents coll id doc).map Prod.fst = coll.map Prod.fst := by
  unfold add_documents
  rw [if_pos]
  · rw [List.map_map]
    refine List.map_congr_left fun p _ => ?_
    show (if p.1 = id then (id, doc) else p).1 = p.1
    split
    · next he => exact he.symm
    · rfl
  · rw [List.any_eq_true]
    obtain ⟨p, hp, he⟩ := List.mem_map.mp h
    exact ⟨p, hp, by simpa using he⟩

theorem add_documents_keys_of_not_mem {coll : Collection} {id : String} (doc : ChromaDoc)
    (h : id ∉ coll.map Prod.fst) :
    (add_documents coll id doc).map Prod.fst = coll.map Prod.fst ++ [id] := by
  unfold add_documents
  rw [if_neg, List.map_append]
  · rfl
  · rw [List.any_eq_true]
    rintro ⟨p, hp, he⟩
    exact h (List.mem_map.mpr ⟨p, hp, by simpa using he⟩)

theorem mem_keys_add_documents (coll : Collection) (id : String) (doc : ChromaDoc) :
    id ∈ (add_documents coll id doc).map Prod.fst := by
  by_cases h : id ∈ coll.map Prod.fst
  · rw [add_documents_keys_of_mem doc h]; exact h
  · rw [add_documents_keys_of_not_mem doc h]; simp

theorem mem_keys_add_documents_of_mem {coll : Collection} {idd : String}
    (id : String) (doc : ChromaDoc) (h : idd ∈ coll.map Prod.fst) :
    idd ∈ (add_documents coll id doc).map Prod.fst := by
  by_cases h2 : id ∈ coll.map Prod.fst
  · rwa [add_documents_keys_of_mem doc h2]
  · rw [add_documents_keys_of_not_mem doc h2]
    exact List.mem_append_left _ h

theorem indexTimes_mem_keys (st : EmbeddingState) (profile : MemberProfile) :
    ∀ n : Nat, 1 ≤ n →
      ("prof_" ++ sanitize_filename profile.name 100) ∈
        (indexTimes st profile n).professional_db.map Prod.fst ∧
      ("pers_" ++ sanitize_filename profile.name 100) ∈
        (indexTimes st profile n).personal_db.map Prod.fst := by
  intro n
  induction n with
  | zero => intro h; exact absurd h (by decide)
  | succ m ih =>
    intro _
    match m, ih with
    | 0, _ =>
      exact ⟨mem_keys_add_documents _ _ _, mem_keys_add_documents _ _ _⟩
    | m + 1, ih =>
      obtain ⟨h1, h2⟩ := ih (by omega)
      exact ⟨mem_keys_add_documents_of_mem _ _ h1, mem_keys_add_documents_of_mem _ _ h2⟩

theorem string_append_left_cancel {s t u : String} (h : s ++ t = s ++ u) : t = u := by
  have hd : s.data ++ t.data = s.data ++ u.data := by
    rw [← String.data_append, ← String.data_append, h]
  exact String.ext (List.append_cancel_left hd)

theorem countView_three {i1 i2 i3 : String} (d1 d2 d3 : ChromaDoc)
    (h21 : i2 = i1) (h31 : i3 ≠ i1) :
    countView (add_documents (add_documents (add_documents [] i1 d1) i2 d2) i3 d3) = 2 := by
  have k1 : (add_documents ([] : Collection) i1 d1).map Prod.fst = [i1] := by
    rw [add_documents_keys_of_not_mem d1 (by simp)]
    rfl
  have k2 : (add_documents (add_documents ([] : Collection) i1 d1) i2 d2).map Prod.fst = [i1] := by
    rw [add_documents_keys_of_mem d2 (by rw [k1, h21]; simp), k1]
  unfold countView
  rw [add_documents_keys_of_not_mem d3 (by rw [k2]; simpa using h31), k2]
  have hne : i1 ∉ [i3] := by
    simp only [List.mem_singleton]
    exact fun h => h31 h.symm
  show ([i1, i3] : List String).dedup.length = 2
  rw [List.dedup_cons_of_not_mem hne]
  simp

/-- **C9**: indexing is idempotent and keyed by the normalised name.  Part
one: for any starting index state, any profile and any `n ≥ 1`, indexing the
profile `n` times leaves `count(view)` of both views equal to its value
after a single indexing.  Part two: indexing records `A`, `B`, `C` into the
empty index, where the names of `A` and `B` sanitise to the same identity
and the name of `C` to a different one, stores exactly two identities per
view. -/
theorem index_profile_idempotent_dedup :
    (∀ (st : EmbeddingState) (profile : MemberProfile) (n : Nat), 1 ≤ n →
      countView (indexTimes st profile n).professional_db =
        countView (indexTimes st profile 1).professional_db ∧
      countView (indexTimes st profile n).personal_db =
        countView (indexTimes st profile 1).personal_db) ∧
    (∀ A B C : MemberProfile,
      sanitize_filename B.name 100 = sanitize_filename A.name 100 →
      sanitize_filename C.name 100 ≠ sanitize_filename A.name 100 →
      countView (index_profile (index_profile (index_profile emptyEmbeddingState A) B) C).professional_db = 2 ∧
      countView (index_profile (index_profile (index_profile emptyEmbeddingState A) B) C).personal_db = 2) := by
  constructor
  · intro st profile n
    induction n with
    | zero => intro h; exact absurd h (by decide)
    | succ m ih =>
      intro _
      match m, ih with
      | 0, _ => exact ⟨rfl, rfl⟩
      | m + 1, ih =>
        obtain ⟨h1, h2⟩ := indexTimes_mem_keys st profile (m + 1) (by omega)
        obtain ⟨e1, e2⟩ := ih (by omega)
        constructor
        · show countView (add_documents (indexTimes st profile (m + 1)).professional_db _ _) = _
          unfold countView
          rw [add_documents_keys_of_mem _ h1]
          exact e1
        · show countView (add_documents (indexTimes st profile (m + 1)).personal_db _ _) = _
          unfold countView
          rw [add_documents_keys_of_mem _ h2]
          exact e2
  · intro A B C hAB hCA
    constructor
    · exact countView_three _ _ _
        (by rw [hAB]) (fun h => hCA (string_append_left_cancel h))
    · exact countView_three _ _ _
        (by rw [hAB]) (fun h => hCA (string_append_left_cancel h))

/-- Witness for **C9**: a record indexed three times counts once, and the
records named `"John Doe"`, `"John-Doe"` (same normalised identity) and
`"Jane"` occupy two entries. -/
theorem index_profile_idempotent_dedup_witness :
    countView (indexTimes emptyEmbeddingState
        ⟨"John Doe", "", "", [], none, [], none⟩ 3).professional_db =
      countView (indexTimes emptyEmbeddingState
        ⟨"John Doe", "", "", [], none, [], none⟩ 1).professional_db ∧
    countView (index_profile (index_profile (index_profile emptyEmbeddingState
        ⟨"John Doe", "", "", [], none, [], none⟩)
        ⟨"John-Doe", "", "", [], none, [], none⟩)
        ⟨"Jane", "", "", [], none, [], none⟩).professional_db = 2 :=
  ⟨(index_profile_idempotent_dedup.1 emptyEmbeddingState
      ⟨"John Doe", "", "", [], none, [], none⟩ 3 (by decide)).1,
   (index_profile_idempotent_dedup.2
      ⟨"John Doe", "", "", [], none, [], none⟩
      ⟨"John-Doe", "", "", [], none, [], none⟩
      ⟨"Jane", "", "", [], none, [], none⟩ (by decide) (by decide)).1⟩

/-! ### Properties of `search_similar` -/

theorem take_append_one {α : Type} (k : Nat) (l : List α) (x : α) :
    (if (l.take k).length < k then l.take k ++ [x] else l.take k) = (l ++ [x]).take k := by
  rw [List.length_take]
  by_cases h : l.length < k
  · rw [if_pos (by omega)]
    rw [List.take_of_length_le (l := l) (by omega),
      List.take_of_length_le (by simpa using by omega)]
  · rw [if_neg (by omega)]
    rw [List.take_append_of_le_length (by omega)]

theorem searchLoop_eq (k : Nat) :
    ∀ (hits : List Hit) (allAcc : List (String × Rat)) (seen : List String),
      searchLoop k hits allAcc (allAcc.take k) seen =
        (allAcc ++ dedupFirstSeen hits seen,
         (allAcc ++ dedupFirstSeen hits seen).take k) := by
  intro hits
  induction hits with
  | nil => intro allAcc seen; simp [searchLoop, dedupFirstSeen]
  | cons h rest ih =>
    intro allAcc seen
    obtain ⟨name?, score⟩ := h
    match name? with
    | none =>
      show searchLoop k rest allAcc (allAcc.take k) seen = _
      rw [ih]
      simp [dedupFirstSeen]
    | some name =>
      by_cases h1 : name = ""
      · show (if name = "" then searchLoop k rest allAcc (allAcc.take k) seen else _) = _
        rw [if_pos h1, ih]
        simp [dedupFirstSeen, h1]
      · by_cases h2 : name ∈ seen
        · show (if name = "" then _ else if name ∈ seen then
            searchLoop k rest allAcc (allAcc.take k) seen else _) = _
          rw [if_neg h1, if_pos h2, ih]
          simp [dedupFirstSeen, h1, h2]
        · show (if name = "" then _ else if name ∈ seen then _ else
            searchLoop k rest (allAcc ++ [(name, score)])
              (if (allAcc.take k).length < k then allAcc.take k ++ [(name, score)]
               else allAcc.take k) (name :: seen)) = _
          rw [if_neg h1, if_neg h2, take_append_one, ih]
          simp only [dedupFirstSeen, if_neg h1, if_neg h2, List.append_assoc,
            List.singleton_append]

theorem dedupFirstSeen_sound :
    ∀ (hits : List Hit) (seen : List String),
      ((dedupFirstSeen hits seen).map Prod.fst).Nodup ∧
      ∀ pr ∈ dedupFirstSeen hits seen,
        pr.1 ∉ seen ∧ pr.1 ≠ "" ∧ firstHitScore hits pr.1 = some pr.2 := by
  intro hits
  induction hits with
  | nil => intro seen; exact ⟨List.nodup_nil, fun pr h => absurd h (List.not_mem_nil _)⟩
  | cons h rest ih =>
    intro seen
    obtain ⟨name?, score⟩ := h
    match name? with
    | none =>
      refine ⟨(ih seen).1, fun pr hpr => ?_⟩
      obtain ⟨hs, hne, hfs⟩ := (ih seen).2 pr hpr
      refine ⟨hs, hne, ?_⟩
      rw [← hfs]
      unfold firstHitScore
      rw [List.find?_cons_of_neg _ (by simp)]
    | some name =>
      simp only [dedupFirstSeen]
      by_cases h1 : name = ""
      · rw [if_pos h1]
        refine ⟨(ih seen).1, fun pr hpr => ?_⟩
        obtain ⟨hs, hne, hfs⟩ := (ih seen).2 pr hpr
        refine ⟨hs, hne, ?_⟩
        rw [← hfs]
        unfold firstHitScore
        rw [List.find?_cons_of_neg _ (by simp [h1]; exact fun he => hne he.symm)]
      · rw [if_neg h1]
        by_cases h2 : name ∈ seen
        · rw [if_pos h2]
          refine ⟨(ih seen).1, fun pr hpr => ?_⟩
          obtain ⟨hs, hne, hfs⟩ := (ih seen).2 pr hpr
          refine ⟨hs, hne, ?_⟩
          rw [← hfs]
          unfold firstHitScore
          rw [List.find?_cons_of_neg _ (by
            simp only [decide_eq_true_eq, Option.some.injEq]
            exact fun he => hs (he ▸ h2))]
        · rw [if_neg h2]
          constructor
          · rw [List.map_cons, List.nodup_cons]
            refine ⟨fun hmem => ?_, (ih (name :: seen)).1⟩
            obtain ⟨pr, hpr, hfst⟩ := List.mem_map.mp hmem
            exact ((ih (name :: seen)).2 pr hpr).1 (hfst ▸ List.mem_cons_self _ _)
          · intro pr hpr
            rcases List.mem_cons.mp hpr with rfl | hpr'
            · refine ⟨h2, h1, ?_⟩
              unfold firstHitScore
              rw [List.find?_cons_of_pos _ (by simp)]
              rfl
            · obtain ⟨hs, hne, hfs⟩ := (ih (name :: seen)).2 pr hpr'
              have hname : pr.1 ≠ name := fun he => hs (he ▸ List.mem_cons_self _ _)
              refine ⟨fun hmem => hs (List.mem_cons_of_mem _ hmem), hne, ?_⟩
              rw [← hfs]
              unfold firstHitScore
              rw [List.find?_cons_of_neg _ (by
                simp only [decide_eq_true_eq, Option.some.injEq]
                exact fun he => hname he.symm)]

/-- **C8**: for any sequence of raw store hits and any `k`,
`search_similar` equals the first-seen deduplication of the hits cut at
`k`: it is in the store order, contains each identity at most once, and
each returned pair carries the score of the first raw hit bearing that
name. -/
theorem search_similar_correct (k : Nat) (hits : List Hit) :
    search_similar k hits = (dedupFirstSeen hits []).take k ∧
    ((search_similar k hits).map Prod.fst).Nodup ∧
    ∀ pr ∈ search_similar k hits, firstHitScore hits pr.1 = some pr.2 := by
  have heq : search_similar k hits = (dedupFirstSeen hits []).take k := by
    unfold search_similar
    have := searchLoop_eq k hits [] []
    simp only [List.take_nil] at this
    rw [this]
    simp
  refine ⟨heq, ?_, ?_⟩
  · rw [heq]
    have hsub : List.Sublist (((dedupFirstSeen hits []).take k).map Prod.fst)
        ((dedupFirstSeen hits []).map Prod.fst) :=
      (List.take_sublist _ _).map _
    exact (dedupFirstSeen_sound hits []).1.sublist hsub
  · intro pr hpr
    rw [heq] at hpr
    exact ((dedupFirstSeen_sound hits []).2 pr (List.take_subset _ _ hpr)).2.2

/-- Witness for **C8**: on the hit sequence `A:2, A:1, B:3` with `k = 2`,
the pair `(A, 2)` is returned and carries the first-seen score of `A`. -/
theorem search_similar_correct_witness :
    firstHitScore [(some "A", 2), (some "A", 1), (some "B", 3)] "A" = some 2 :=
  (search_similar_correct 2 [(some "A", 2), (some "A", 1), (some "B", 3)]).2.2
    ("A", 2) (by decide)

/-! ### Properties of `prepare_table_data` -/

theorem byScoreDesc_trans : ∀ a b c : AnalysisResult,
    byScoreDesc a b = true → byScoreDesc b c = true → byScoreDesc a c = true := by
  intro a b c hab hbc
  simp only [byScoreDesc, decide_eq_true_eq] at hab hbc ⊢
  exact le_trans hbc hab

theorem byScoreDesc_total : ∀ a b : AnalysisResult,
    (byScoreDesc a b || byScoreDesc b a) = true := by
  intro a b
  simp only [byScoreDesc, Bool.or_eq_true, decide_eq_true_eq]
  exact le_total b.similarity_score a.similarity_score

theorem mergeSort_byScoreDesc_sorted (l : List AnalysisResult) :
    (l.mergeSort byScoreDesc).Pairwise
      (fun a b => b.similarity_score ≤ a.similarity_score) := by
  have h := List.sorted_mergeSort byScoreDesc_trans byScoreDesc_total l
  exact h.imp (fun hab => by simpa [byScoreDesc] using hab)

theorem map_snd_filterMap_load (load : String → Option MemberProfile) :
    ∀ l : List AnalysisResult,
      (l.filterMap (fun r => (load r.profile_name).map (fun p => (p, r)))).map Prod.snd =
        l.filter (fun r => (load r.profile_name).isSome) := by
  intro l
  induction l with
  | nil => rfl
  | cons a rest ih =>
    cases hl : load a.profile_name with
    | none => simp [List.filterMap_cons, List.filter_cons, hl, ih]
    | some p => simp [List.filterMap_cons, List.filter_cons, hl, ih]

theorem prepare_table_data_snd (load : String → Option MemberProfile)
    (rs : List AnalysisResult) (b : Bool) :
    (prepare_table_data load rs b).1.map Prod.snd =
      (if b then
          (rs.filter (fun r => r.«matches»)).mergeSort byScoreDesc ++
            (rs.filter (fun r => !r.«matches»)).mergeSort byScoreDesc
        else (rs.filter (fun r => r.«matches»)).mergeSort byScoreDesc).filter
        (fun r => (load r.profile_name).isSome) := by
  unfold prepare_table_data
  exact map_snd_filterMap_load load _

/-- **C2**: in the output of the rank assembler, the `matches=true` entries
and the `matches=false` entries are each ordered by non-increasing
`similarity_score` — the single descending-score convention the code
applies, via the same comparator, to both groups. -/
theorem prepare_table_data_sorted_groups (load : String → Option MemberProfile)
    (rs : List AnalysisResult) (b : Bool) :
    (((prepare_table_data load rs b).1.map Prod.snd).filter
        (fun r => r.«matches»)).Pairwise
      (fun a b => b.similarity_score ≤ a.similarity_score) ∧
    (((prepare_table_data load rs b).1.map Prod.snd).filter
        (fun r => !r.«matches»)).Pairwise
      (fun a b => b.similarity_score ≤ a.similarity_score) := by
  rw [prepare_table_data_snd]
  have hMall : ∀ r ∈ (rs.filter (fun r => r.«matches»)).mergeSort byScoreDesc,
      r.«matches» = true := fun r hr =>
    List.of_mem_filter (List.mem_mergeSort.mp hr)
  have hUall : ∀ r ∈ (rs.filter (fun r => !r.«matches»)).mergeSort byScoreDesc,
      r.«matches» = false := fun r hr => by
    have := List.of_mem_filter (List.mem_mergeSort.mp hr)
    simpa using this
  cases b with
  | false =>
    simp only [Bool.false_eq_true, if_false]
    constructor
    · exact List.Pairwise.sublist
        ((List.filter_sublist _).trans (List.filter_sublist _))
        (mergeSort_byScoreDesc_sorted _)
    · have hM0 : ((((rs.filter (fun r => r.«matches»)).mergeSort byScoreDesc).filter
          (fun r => (load r.profile_name).isSome)).filter (fun r => !r.«matches»)) = [] :=
        List.filter_eq_nil_iff.mpr (fun a ha => by
          simp [hMall a (List.mem_of_mem_filter ha)])
      rw [hM0]
      exact List.Pairwise.nil
  | true =>
    simp only [if_true]
    have hU0 : ((((rs.filter (fun r => !r.«matches»)).mergeSort byScoreDesc).filter
        (fun r => (load r.profile_name).isSome)).filter (fun r => r.«matches»)) = [] :=
      List.filter_eq_nil_iff.mpr (fun a ha => by
        simp [hUall a (List.mem_of_mem_filter ha)])
    have hM0 : ((((rs.filter (fun r => r.«matches»)).mergeSort byScoreDesc).filter
        (fun r => (load r.profile_name).isSome)).filter (fun r => !r.«matches»)) = [] :=
      List.filter_eq_nil_iff.mpr (fun a ha => by
        simp [hMall a (List.mem_of_mem_filter ha)])
    constructor
    · rw [List.filter_append, List.filter_append, hU0, List.append_nil]
      exact List.Pairwise.sublist
        ((List.filter_sublist _).trans (List.filter_sublist _))
        (mergeSort_byScoreDesc_sorted _)
    · rw [List.filter_append, List.filter_append, hM0, List.nil_append]
      exact List.Pairwise.sublist
        ((List.filter_sublist _).trans (List.filter_sublist _))
        (mergeSort_byScoreDesc_sorted _)

/-- **C3**: with `include_all_profiles = true`, every `matches=true` entry
of the assembled output precedes every `matches=false` entry: pairwise, a
later entry can only match if the earlier one does. -/
theorem prepare_table_data_matched_first (load : String → Option MemberProfile)
    (rs : List AnalysisResult) :
    ((prepare_table_data load rs true).1.map Prod.snd).Pairwise
      (fun a b => b.«matches» = true → a.«matches» = true) := by
  rw [prepare_table_data_snd]
  simp only [if_true]
  have hMall : ∀ r ∈ (rs.filter (fun r => r.«matches»)).mergeSort byScoreDesc,
      r.«matches» = true := fun r hr =>
    List.of_mem_filter (List.mem_mergeSort.mp hr)
  have hUall : ∀ r ∈ (rs.filter (fun r => !r.«matches»)).mergeSort byScoreDesc,
      r.«matches» = false := fun r hr => by
    have := List.of_mem_filter (List.mem_mergeSort.mp hr)
    simpa using this
  refine List.Pairwise.sublist (List.filter_sublist _) ?_
  rw [List.pairwise_append]
  refine ⟨List.pairwise_of_forall_mem_list (fun a ha b _ _ => hMall a ha),
    List.pairwise_of_forall_mem_list (fun a _ b hb hbm => ?_),
    fun a ha b _ _ => hMall a ha⟩
  rw [hUall b hb] at hbm
  exact absurd hbm (by simp)

/-- **C4 counterexample**: the rank assembler does not emit one data row per
input result — a result whose profile fails to load is silently dropped.
With a repository from which nothing loads, one input result yields an empty
row list. -/
theorem prepare_table_data_drops_unloadable :
    (prepare_table_data (fun _ => none)
      [{ profile_name := "A", «matches» := true, reasoning := "r",
         similarity_score := 1 }] true).1 = [] ∧
    ([{ profile_name := "A", «matches» := true, reasoning := "r",
        similarity_score := 1 }] : List AnalysisResult).length = 1 := by
  constructor
  · unfold prepare_table_data
    simp [List.mergeSort_singleton, List.mergeSort_nil, List.filter_cons]
  · rfl

/-- **C4 (amended)**: whenever every input result has a loadable profile,
the rank assembler with `include_all_profiles = true` emits every input
result exactly once — the multiset of emitted results is a permutation of
the input; results whose profile fails to load are silently omitted (see
the counterexample). -/
theorem prepare_table_data_complete (load : String → Option MemberProfile)
    (rs : List AnalysisResult)
    (h : ∀ r ∈ rs, (load r.profile_name).isSome) :
    ((prepare_table_data load rs true).1.map Prod.snd).Perm rs := by
  rw [prepare_table_data_snd]
  simp only [if_true]
  have hall : ∀ r ∈ (rs.filter (fun r => r.«matches»)).mergeSort byScoreDesc ++
      (rs.filter (fun r => !r.«matches»)).mergeSort byScoreDesc,
      (load r.profile_name).isSome := by
    intro r hr
    rcases List.mem_append.mp hr with hr | hr
    · exact h r (List.mem_of_mem_filter (List.mem_mergeSort.mp hr))
    · exact h r (List.mem_of_mem_filter (List.mem_mergeSort.mp hr))
  rw [List.filter_eq_self.mpr hall]
  exact ((List.mergeSort_perm _ _).append (List.mergeSort_perm _ _)).trans
    (List.filter_append_perm _ _)

/-- Witness for **C4 (amended)**: with a total repository, the two input
results are emitted exactly once each. -/
theorem prepare_table_data_complete_witness :
    ((prepare_table_data (fun n => some ⟨n, "", "", [], none, [], none⟩)
      [{ profile_name := "A", «matches» := false, reasoning := "",
         similarity_score := 1 },
       { profile_name := "B", «matches» := true, reasoning := "r",
         similarity_score := 2 }] true).1.map Prod.snd).Perm
      [{ profile_name := "A", «matches» := false, reasoning := "",
         similarity_score := 1 },
       { profile_name := "B", «matches» := true, reasoning := "r",
         similarity_score := 2 }] :=
  prepare_table_data_complete _ _ (fun _ _ => rfl)

/-! ### Properties of `smart_analyze` -/

theorem analyze_profile_name (judge : Judge) (criteria search_type : String)
    (profile : MemberProfile) :
    (analyze_profile judge criteria search_type profile).profile_name = profile.name := by
  unfold analyze_profile
  cases judge criteria search_type profile <;> rfl

theorem filterMap_load_map_name (repo : String → Option MemberProfile)
    (g : String × Rat → MemberProfile → AnalysisResult)
    (hg : ∀ c p, (g c p).profile_name = p.name)
    (hrepo : ∀ n p, repo n = some p → p.name = n) :
    ∀ l : List (String × Rat),
      (l.filterMap (fun c => (repo c.1).map (g c))).map (fun r => r.profile_name) =
        (l.map Prod.fst).filter (fun n => (repo n).isSome) := by
  intro l
  induction l with
  | nil => rfl
  | cons c rest ih =>
    cases hl : repo c.1 with
    | none => simp [List.filterMap_cons, List.filter_cons, hl, ih]
    | some p =>
      simp [List.filterMap_cons, List.filter_cons, hl, ih, hg, hrepo c.1 p hl]

theorem results_map_name (judge : Judge) (repo : String → Option MemberProfile)
    (criteria search_type : String)
    (hrepo : ∀ n p, repo n = some p → p.name = n) :
    ∀ l : List (String × Rat),
      (l.filterMap (fun c => (repo c.1).map (fun profile =>
        { analyze_profile judge criteria search_type profile with
          similarity_score := c.2 }))).map (fun r => r.profile_name) =
      (l.map Prod.fst).filter (fun n => (repo n).isSome) :=
  filterMap_load_map_name repo
    (fun c profile => { analyze_profile judge criteria search_type profile with
      similarity_score := c.2 })
    (fun c p => analyze_profile_name judge criteria search_type p) hrepo

theorem map_name_unanalyzed (analyzed : List String) :
    ∀ l : List (String × Rat),
      ((l.filter (fun c => c.1 ∉ analyzed)).map (fun c =>
        ({ profile_name := c.1, «matches» := false, reasoning := "",
           similarity_score := c.2 } : AnalysisResult))).map (fun r => r.profile_name) =
      (l.map Prod.fst).filter (fun n => n ∉ analyzed) := by
  intro l
  induction l with
  | nil => rfl
  | cons c rest ih =>
    simp only [List.map_map, decide_not] at ih
    by_cases h : c.1 ∈ analyzed <;> simp [List.filter_cons, h, ih, decide_not]

theorem names_split_perm (L : List String) (K : Nat) (q : String → Bool)
    (hnd : L.Nodup) :
    ((L.take K).filter q ++
      L.filter (fun n => n ∉ (L.take K).filter q)).Perm L := by
  have e0 : L.filter (fun n => n ∉ (L.take K).filter q) =
      (L.take K ++ L.drop K).filter (fun n => n ∉ (L.take K).filter q) := by
    rw [List.take_append_drop]
  have e1 : (L.take K).filter (fun n => n ∉ (L.take K).filter q) =
      (L.take K).filter (fun n => !q n) :=
    List.filter_congr (fun x hx => by
      by_cases hq : q x <;> simp [List.mem_filter, hx, hq])
  have e2 : (L.drop K).filter (fun n => n ∉ (L.take K).filter q) = L.drop K :=
    List.filter_eq_self.mpr (fun x hx => by
      have hnx : x ∉ L.take K := fun hmem =>
        (List.disjoint_take_drop hnd (le_refl K)) hmem hx
      simp [List.mem_filter, hnx])
  rw [e0, List.filter_append, e1, e2, ← List.append_assoc]
  have h1 : ((L.take K).filter q ++ (L.take K).filter (fun n => !q n)).Perm
      (L.take K) := List.filter_append_perm q (L.take K)
  have := h1.append (List.Perm.refl (L.drop K))
  rwa [List.take_append_drop] at this

theorem smart_analyze_on_names (judge : Judge) (repo : String → Option MemberProfile)
    (criteria search_type : String) (K : Nat) (allP : List (String × Rat))
    (hrepo : ∀ n p, repo n = some p → p.name = n)
    (hnd : (allP.map Prod.fst).Nodup) :
    ((smart_analyze_on judge repo criteria search_type K allP).map
      (fun r => r.profile_name)).Perm (allP.map Prod.fst) := by
  unfold smart_analyze_on
  rw [List.map_append, results_map_name judge repo criteria search_type hrepo,
    map_name_unanalyzed, List.map_take]
  exact names_split_perm (allP.map Prod.fst) K (fun n => (repo n).isSome) hnd

/-- **C1**: for a repository keyed by identity, `smart_analyze` returns
exactly one `AnalysisResult` per distinct identity of the queried view — its
output names are a permutation of the candidate list (which carries one
entry per distinct identity), for every `K` up to the candidate count. -/
theorem smart_analyze_complete (judge : Judge) (repo : String → Option MemberProfile)
    (criteria search_type : String) (K : Nat) (hits : List Hit)
    (hrepo : ∀ n p, repo n = some p → p.name = n)
    (_hK : K ≤ (get_all_profiles_with_scores hits).length) :
    (smart_analyze judge repo criteria search_type K hits).length =
      (get_all_profiles_with_scores hits).length ∧
    ((smart_analyze judge repo criteria search_type K hits).map
      (fun r => r.profile_name)).Perm
      ((get_all_profiles_with_scores hits).map Prod.fst) := by
  have hnd : ((get_all_profiles_with_scores hits).map Prod.fst).Nodup :=
    (dedupFirstSeen_sound hits []).1
  have hperm := smart_analyze_on_names judge repo criteria search_type K
    (get_all_profiles_with_scores hits) hrepo hnd
  refine ⟨?_, hperm⟩
  have := hperm.length_eq
  simpa using this

/-- Witness for **C1**: two distinct identities, a total identity-keyed
repository, `K = 1`: two results, names a permutation of the candidates. -/
theorem smart_analyze_complete_witness :
    (smart_analyze (fun _ _ _ => Except.ok ⟨some true, some "ok"⟩)
      (fun n => some ⟨n, "", "", [], none, [], none⟩) "c" "professional" 1
      [(some "A", 1), (some "B", 2)]).length =
      (get_all_profiles_with_scores [(some "A", 1), (some "B", 2)]).length ∧
    ((smart_analyze (fun _ _ _ => Except.ok ⟨some true, some "ok"⟩)
      (fun n => some ⟨n, "", "", [], none, [], none⟩) "c" "professional" 1
      [(some "A", 1), (some "B", 2)]).map (fun r => r.profile_name)).Perm
      ((get_all_profiles_with_scores [(some "A", 1), (some "B", 2)]).map Prod.fst) :=
  smart_analyze_complete _ _ "c" "professional" 1 [(some "A", 1), (some "B", 2)]
    (fun n p h => by
      have he : (⟨n, "", "", [], none, [], none⟩ : MemberProfile) = p :=
        Option.some.inj h
      rw [← he])
    (by decide)

/-- **C7**: with `K = 0` no classification happens: every returned result is
the unanalysed rendering of its candidate — `matches = false`, empty
reasoning, and the true retrieval similarity score — independently of the
judge and the repository. -/
theorem smart_analyze_k_zero (judge : Judge) (repo : String → Option MemberProfile)
    (criteria search_type : String) (hits : List Hit) :
    smart_analyze judge repo criteria search_type 0 hits =
      (get_all_profiles_with_scores hits).map (fun c =>
        { profile_name := c.1, «matches» := false, reasoning := "",
          similarity_score := c.2 }) := by
  unfold smart_analyze smart_analyze_on
  simp only [List.take_zero, List.filterMap_nil, List.map_nil, List.filter_nil,
    List.nil_append]
  rw [List.filter_eq_self.mpr (fun c _ => by simp)]

/-! ### Failure isolation in `smart_analyze` (claim C5) -/

theorem filterMap_length_congr {α β γ : Type} (f : α → Option β) (g : α → Option γ)
    (h : ∀ a, (f a).isSome = (g a).isSome) :
    ∀ l : List α, (l.filterMap f).length = (l.filterMap g).length := by
  intro l
  induction l with
  | nil => rfl
  | cons a rest ih =>
    have ha := h a
    cases hf : f a with
    | none =>
      cases hg : g a with
      | none => simpa [List.filterMap_cons, hf, hg] using ih
      | some y => rw [hf, hg] at ha; exact absurd ha (by simp)
    | some x =>
      cases hg : g a with
      | none => rw [hf, hg] at ha; exact absurd ha (by simp)
      | some y => simpa [List.filterMap_cons, hf, hg] using ih

/-- **C5 counterexample**: a top-`K` candidate whose record is missing from
the repository is emitted with an *empty* rationale, not a rationale
describing the failure: with one candidate, `K = 1` and a repository from
which nothing loads, the whole output is that candidate with
`matches = false` and `reasoning = ""`. -/
theorem smart_analyze_missing_record_empty_rationale :
    smart_analyze (fun _ _ _ => Except.error "boom") (fun _ => none)
      "criteria" "professional" 1 [(some "A", 1)] =
      [{ profile_name := "A", «matches» := false, reasoning := "",
         similarity_score := 1 }] := by
  decide

/-- **C5 (amended)**: a top-`K` candidate on which the judge call fails
(error or malformed reply) is still emitted with `matches = false` and the
failure-describing rationale `"Ошибка анализа: <error>"`; a candidate whose
record is missing from the repository is still emitted, but with
`matches = false` and an *empty* rationale (it falls through to the
unclassified remainder); and the number of emitted results never depends on
the judge, so per-candidate failures are never call-level errors and the
remaining candidates are still processed. -/
theorem smart_analyze_failure_isolation (judge : Judge)
    (repo : String → Option MemberProfile) (criteria search_type : String)
    (K : Nat) (hits : List Hit) :
    (∀ c prof e, c ∈ (get_all_profiles_with_scores hits).take K →
      repo c.1 = some prof → judge criteria search_type prof = Except.error e →
      ({ profile_name := prof.name, «matches» := false,
         reasoning := "Ошибка анализа: " ++ e,
         similarity_score := c.2 } : AnalysisResult) ∈
        smart_analyze judge repo criteria search_type K hits) ∧
    (∀ c, c ∈ get_all_profiles_with_scores hits → repo c.1 = none →
      ({ profile_name := c.1, «matches» := false, reasoning := "",
         similarity_score := c.2 } : AnalysisResult) ∈
        smart_analyze judge repo criteria search_type K hits) ∧
    (∀ judge₂ : Judge,
      (smart_analyze judge repo criteria search_type K hits).length =
        (smart_analyze judge₂ repo criteria search_type K hits).length) := by
  refine ⟨?_, ?_, ?_⟩
  · intro c prof e hc hrp hj
    unfold smart_analyze smart_analyze_on
    apply List.mem_append_left
    apply List.mem_filterMap.mpr
    refine ⟨c, hc, ?_⟩
    have ha : analyze_profile judge criteria search_type prof =
        { profile_name := prof.name, «matches» := false,
          reasoning := "Ошибка анализа: " ++ e, similarity_score := 0 } := by
      unfold analyze_profile
      rw [hj]
    rw [hrp, Option.map_some', ha]
  · intro c hc hnone
    unfold smart_analyze smart_analyze_on
    apply List.mem_append_right
    apply List.mem_map.mpr
    refine ⟨c, List.mem_filter.mpr ⟨hc, ?_⟩, rfl⟩
    simp only [decide_eq_true_eq]
    intro hmem
    have hsome := List.of_mem_filter hmem
    rw [hnone] at hsome
    exact absurd hsome (by simp)
  · intro judge₂
    unfold smart_analyze smart_analyze_on
    simp only [List.length_append]
    have he := filterMap_length_congr
      (fun c : String × Rat => (repo c.1).map (fun profile =>
        { analyze_profile judge criteria search_type profile with
          similarity_score := c.2 }))
      (fun c : String × Rat => (repo c.1).map (fun profile =>
        { analyze_profile judge₂ criteria search_type profile with
          similarity_score := c.2 }))
      (fun c => by cases repo c.1 <;> simp)
      ((get_all_profiles_with_scores hits).take K)
    rw [he]

/-- Witness for **C5 (amended)**: with an identity-keyed repository and a
judge that always fails with `"T"`, the single top candidate is emitted with
the failure rationale. -/
theorem smart_analyze_failure_isolation_witness :
    ({ profile_name := "A", «matches» := false,
       reasoning := "Ошибка анализа: T", similarity_score := 1 } : AnalysisResult) ∈
      smart_analyze (fun _ _ _ => Except.error "T")
        (fun n => some ⟨n, "", "", [], none, [], none⟩) "c" "professional" 1
        [(some "A", 1)] :=
  (smart_analyze_failure_isolation (fun _ _ _ => Except.error "T")
      (fun n => some ⟨n, "", "", [], none, [], none⟩) "c" "professional" 1
      [(some "A", 1)]).1
    ("A", 1) ⟨"A", "", "", [], none, [], none⟩ "T" (by decide) rfl rfl

/-! ### Bounded classification (claim C6) -/

theorem smart_analyze_on_eq (judge : Judge) (repo : String → Option MemberProfile)
    (criteria search_type : String) (K : Nat) (allP : List (String × Rat)) :
    smart_analyze_on judge repo criteria search_type K allP =
      (allP.take K).filterMap (fun c => (repo c.1).map (fun profile =>
        { analyze_profile judge criteria search_type profile with
          similarity_score := c.2 })) ++
      (allP.filter (fun c =>
        c.1 ∉ ((allP.take K).map Prod.fst).filter (fun n => (repo n).isSome))).map
        (fun c =>
          { profile_name := c.1, «matches» := false, reasoning := "",
            similarity_score := c.2 }) := rfl

theorem filterMap_length_all_some {α β : Type} (f : α → Option β) :
    ∀ l : List α, (∀ a ∈ l, (f a).isSome) → (l.filterMap f).length = l.length := by
  intro l
  induction l with
  | nil => intro _; rfl
  | cons a rest ih =>
    intro hall
    have ha := hall a (List.mem_cons_self _ _)
    cases hf : f a with
    | none => rw [hf] at ha; exact absurd ha (by simp)
    | some b =>
      rw [List.filterMap_cons_some hf, List.length_cons, List.length_cons,
        ih (fun x hx => hall x (List.mem_cons_of_mem _ hx))]

theorem filter_not_mem_take (L : List String) (K : Nat) (hnd : L.Nodup) :
    L.filter (fun n => n ∉ L.take K) = L.drop K := by
  have e0 : L.filter (fun n => n ∉ L.take K) =
      (L.take K ++ L.drop K).filter (fun n => n ∉ L.take K) := by
    rw [List.take_append_drop]
  have e1 : (L.take K).filter (fun n => n ∉ L.take K) = [] :=
    List.filter_eq_nil_iff.mpr (fun a ha => by simp [ha])
  have e2 : (L.drop K).filter (fun n => n ∉ L.take K) = L.drop K :=
    List.filter_eq_self.mpr (fun a ha => by
      simp only [decide_eq_true_eq]
      exact fun hmem => (List.disjoint_take_drop hnd (le_refl K)) hmem ha)
  rw [e0, List.filter_append, e1, e2, List.nil_append]

theorem smart_analyze_on_counts (judge : Judge) (repo : String → Option MemberProfile)
    (criteria search_type : String) (K : Nat) (allP : List (String × Rat))
    (hnd : (allP.map Prod.fst).Nodup)
    (h : ∀ c ∈ allP.take K, ∃ prof, repo c.1 = some prof ∧
      (analyze_profile judge criteria search_type prof).reasoning ≠ "") :
    ((smart_analyze_on judge repo criteria search_type K allP).filter
        (fun r => r.reasoning ≠ "")).length = min K allP.length ∧
    ((smart_analyze_on judge repo criteria search_type K allP).filter
        (fun r => r.reasoning = "")).length = allP.length - min K allP.length := by
  have hF1 : ∀ c ∈ allP.take K, ((fun c : String × Rat => (repo c.1).map (fun profile =>
      { analyze_profile judge criteria search_type profile with
        similarity_score := c.2 })) c).isSome := by
    intro c hc
    obtain ⟨prof, hp, _⟩ := h c hc
    simp [hp]
  have hreslen : ((allP.take K).filterMap (fun c => (repo c.1).map (fun profile =>
      { analyze_profile judge criteria search_type profile with
        similarity_score := c.2 }))).length = min K allP.length := by
    rw [filterMap_length_all_some _ _ hF1, List.length_take]
  have hresne : ∀ r ∈ (allP.take K).filterMap (fun c => (repo c.1).map (fun profile =>
      { analyze_profile judge criteria search_type profile with
        similarity_score := c.2 })), r.reasoning ≠ "" := by
    intro r hr
    obtain ⟨c, hc, hfc⟩ := List.mem_filterMap.mp hr
    obtain ⟨prof, hp, hne⟩ := h c hc
    rw [hp, Option.map_some'] at hfc
    rw [← Option.some.inj hfc]
    exact hne
  have hanalyzed : (((allP.take K).map Prod.fst).filter (fun n => (repo n).isSome)) =
      (allP.take K).map Prod.fst := by
    apply List.filter_eq_self.mpr
    intro nm hnm
    obtain ⟨c, hc, rfl⟩ := List.mem_map.mp hnm
    obtain ⟨prof, hp, _⟩ := h c hc
    simp [hp]
  have hloop2len : ((allP.filter (fun c =>
      c.1 ∉ ((allP.take K).map Prod.fst).filter (fun n => (repo n).isSome))).map
      (fun c =>
        ({ profile_name := c.1, «matches» := false, reasoning := "",
           similarity_score := c.2 } : AnalysisResult))).length =
      allP.length - K := by
    rw [hanalyzed]
    have e1 := congrArg List.length
      (map_name_unanalyzed ((allP.take K).map Prod.fst) allP)
    rw [List.length_map] at e1
    rw [e1, List.map_take, filter_not_mem_take _ _ hnd, List.length_drop,
      List.length_map]
  have hloop2e : ∀ r ∈ (allP.filter (fun c =>
      c.1 ∉ ((allP.take K).map Prod.fst).filter (fun n => (repo n).isSome))).map
      (fun c =>
        ({ profile_name := c.1, «matches» := false, reasoning := "",
           similarity_score := c.2 } : AnalysisResult)), r.reasoning = "" := by
    intro r hr
    obtain ⟨c, _, rfl⟩ := List.mem_map.mp hr
    rfl
  rw [smart_analyze_on_eq]
  constructor
  · rw [List.filter_append,
      List.filter_eq_self.mpr (fun r hr => by simp [hresne r hr]),
      List.filter_eq_nil_iff.mpr (fun r hr => by simp [hloop2e r hr]),
      List.append_nil]
    exact hreslen
  · rw [List.filter_append,
      List.filter_eq_nil_iff.mpr (fun r hr => by simp [hresne r hr]),
      List.filter_eq_self.mpr (fun r hr => by simp [hloop2e r hr]),
      List.nil_append, hloop2len]
    omega

theorem smart_analyze_on_clamp (judge : Judge) (repo : String → Option MemberProfile)
    (criteria search_type : String) (K : Nat) (allP : List (String × Rat)) :
    smart_analyze_on judge repo criteria search_type K allP =
      smart_analyze_on judge repo criteria search_type (min K allP.length) allP := by
  have htake : allP.take K = allP.take (min K allP.length) := by
    rcases le_total K allP.length with hle | hle
    · rw [min_eq_left hle]
    · rw [min_eq_right hle, List.take_of_length_le hle, List.take_length]
  rw [smart_analyze_on_eq, smart_analyze_on_eq, htake]

/-- **C6**: when every top-`min(K, n)` candidate loads from the repository
and is classified with a non-empty rationale, exactly `min(K, n)` of the
returned results carry a non-empty rationale and the remaining
`n - min(K, n)` carry an empty one; moreover a `K` larger than the
candidate count behaves exactly as `K` clamped to the candidate count. -/
theorem smart_analyze_bounded_classification (judge : Judge)
    (repo : String → Option MemberProfile) (criteria search_type : String)
    (K : Nat) (hits : List Hit)
    (h : ∀ c ∈ (get_all_profiles_with_scores hits).take K,
      ∃ prof, repo c.1 = some prof ∧
        (analyze_profile judge criteria search_type prof).reasoning ≠ "") :
    ((smart_analyze judge repo criteria search_type K hits).filter
        (fun r => r.reasoning ≠ "")).length =
      min K (get_all_profiles_with_scores hits).length ∧
    ((smart_analyze judge repo criteria search_type K hits).filter
        (fun r => r.reasoning = "")).length =
      (get_all_profiles_with_scores hits).length -
        min K (get_all_profiles_with_scores hits).length ∧
    smart_analyze judge repo criteria search_type K hits =
      smart_analyze judge repo criteria search_type
        (min K (get_all_profiles_with_scores hits).length) hits := by
  have hnd : ((get_all_profiles_with_scores hits).map Prod.fst).Nodup :=
    (dedupFirstSeen_sound hits []).1
  have hc := smart_analyze_on_counts judge repo criteria search_type K
    (get_all_profiles_with_scores hits) hnd h
  exact ⟨hc.1, hc.2, smart_analyze_on_clamp judge repo criteria search_type K
    (get_all_profiles_with_scores hits)⟩

/-- Witness for **C6** at one candidate list of two identities, `K = 1`, a
total repository and an always-succeeding judge with rationale `"ok"`:
exactly one result carries a non-empty rationale, one an empty one, and
`K = 1` equals its own clamp. -/
theorem smart_analyze_bounded_classification_witness :
    ((smart_analyze (fun _ _ _ => Except.ok ⟨some true, some "ok"⟩)
        (fun n => some ⟨n, "", "", [], none, [], none⟩) "c" "professional" 1
        [(some "A", 1), (some "B", 2)]).filter
      (fun r => r.reasoning ≠ "")).length =
      min 1 (get_all_profiles_with_scores [(some "A", 1), (some "B", 2)]).length ∧
    ((smart_analyze (fun _ _ _ => Except.ok ⟨some true, some "ok"⟩)
        (fun n => some ⟨n, "", "", [], none, [], none⟩) "c" "professional" 1
        [(some "A", 1), (some "B", 2)]).filter
      (fun r => r.reasoning = "")).length =
      (get_all_profiles_with_scores [(some "A", 1), (some "B", 2)]).length -
        min 1 (get_all_profiles_with_scores [(some "A", 1), (some "B", 2)]).length := by
  have hb := smart_analyze_bounded_classification
    (fun _ _ _ => Except.ok ⟨some true, some "ok"⟩)
    (fun n => some ⟨n, "", "", [], none, [], none⟩) "c" "professional" 1
    [(some "A", 1), (some "B", 2)]
    (fun c hc => by
      have hc2 : c ∈ [((("A" : String), (1 : Rat)))] := hc
      rcases List.mem_singleton.mp hc2 with rfl
      exact ⟨⟨"A", "", "", [], none, [], none⟩, rfl, by decide⟩)
  exact ⟨hb.1, hb.2.1⟩

end YardFind
